import Mathlib

/-!
Verification of the reactive-composition core (mergeMap flattening protocol,
queue scheduler, canReportError policy, onErrorResumeNext) against its
specification.  The flattening protocol is embedded from
`src/internal/operators/mergeMap.ts` (class `MergeMapSubscriber`); the
onErrorResumeNext creation function from
`src/internal/observable/onErrorResumeNext.ts`.
-/

namespace RxSpec

/-- A notification delivered to a destination observer: one of
`next(value)`, `error(err)`, `complete()`. -/
inductive Notif (V E : Type) where
  | next (v : V)
  | error (e : E)
  | complete
deriving DecidableEq, Repr

/-- Events driving a `MergeMapSubscriber`: outer source notifications
(`outerNext`, `outerComplete`) and inner-subscriber callbacks
(`innerNext` = `notifyNext`, `innerComplete` = `notifyComplete`). -/
inductive MMEv (T R : Type) where
  | outerNext (v : T)
  | outerComplete
  | innerNext (r : R)
  | innerComplete
deriving DecidableEq, Repr

/-- The mutable state of a `MergeMapSubscriber` (mergeMap.ts lines 108-112):
`hasCompleted`, `buffer`, `active`, `index`.  The extra field `admitted` is
ghost instrumentation only: it records, in order, the values that have been
passed to the projection function, so that admission order can be stated. -/
structure MMState (T : Type) where
  hasCompleted : Bool
  buffer : List T
  active : Nat
  index : Nat
  admitted : List T
deriving DecidableEq, Repr

/-- Initial state of a `MergeMapSubscriber`. -/
def mmInit (T : Type) : MMState T :=
  ⟨false, [], 0, 0, []⟩

/-- `MergeMapSubscriber._next` (mergeMap.ts lines 120-138).  If
`active < concurrent`, the projection is invoked inside a try/catch
(`index` is incremented first, as in `const index = this.index++`); a thrown
projection error is routed to `destination.error` and processing of the value
stops; on success `active` is incremented and an inner subscriber is created
(the subscription side effects are not part of the pure state).  Otherwise the
value is pushed onto `buffer`. -/
def mmNext {T R E : Type} (project : T → Nat → Except E Unit) (concurrent : Nat)
    (s : MMState T) (v : T) : MMState T × List (Notif R E) :=
  if s.active < concurrent then
    match project v s.index with
    | Except.error err =>
        ({ s with index := s.index + 1, admitted := s.admitted ++ [v] },
         [Notif.error err])
    | Except.ok _ =>
        ({ s with index := s.index + 1, active := s.active + 1,
                  admitted := s.admitted ++ [v] },
         [])
  else
    ({ s with buffer := s.buffer ++ [v] }, [])

/-- `MergeMapSubscriber._complete` (mergeMap.ts lines 140-146): set
`hasCompleted`; if no inner is active and the buffer is empty, complete the
destination. -/
def mmComplete {T R E : Type} (s : MMState T) : MMState T × List (Notif R E) :=
  let s1 := { s with hasCompleted := true }
  if s1.active = 0 && s1.buffer.isEmpty then (s1, [Notif.complete]) else (s1, [])

/-- `MergeMapSubscriber.notifyNext` (mergeMap.ts lines 148-150): an inner
value is forwarded directly to the destination. -/
def mmInnerNext {T R E : Type} (s : MMState T) (r : R) :
    MMState T × List (Notif R E) :=
  (s, [Notif.next r])

/-- `MergeMapSubscriber.notifyComplete` (mergeMap.ts lines 152-160): decrement
`active`; if the buffer is non-empty, shift the oldest value and feed it to
`_next`; otherwise complete the destination when `active = 0` and the outer
has completed. -/
def mmInnerComplete {T R E : Type} (project : T → Nat → Except E Unit)
    (concurrent : Nat) (s : MMState T) : MMState T × List (Notif R E) :=
  let s1 := { s with active := s.active - 1 }
  match s1.buffer with
  | v :: rest => mmNext project concurrent { s1 with buffer := rest } v
  | [] =>
      if s1.active = 0 && s1.hasCompleted then (s1, [Notif.complete])
      else (s1, [])

/-- One step of the `MergeMapSubscriber` state machine, dispatching an event
to the corresponding handler. -/
def mmStep {T R E : Type} (project : T → Nat → Except E Unit) (concurrent : Nat)
    (s : MMState T) : MMEv T R → MMState T × List (Notif R E)
  | MMEv.outerNext v => mmNext project concurrent s v
  | MMEv.outerComplete => mmComplete s
  | MMEv.innerNext r => mmInnerNext s r
  | MMEv.innerComplete => mmInnerComplete project concurrent s

/-- Run the state machine over a list of events, collecting the destination
notifications in order. -/
def mmRun {T R E : Type} (project : T → Nat → Except E Unit) (concurrent : Nat)
    (s : MMState T) : List (MMEv T R) → MMState T × List (Notif R E)
  | [] => (s, [])
  | e :: rest =>
      ((mmRun project concurrent (mmStep project concurrent s e).1 rest).1,
       (mmStep project concurrent s e).2 ++
         (mmRun project concurrent (mmStep project concurrent s e).1 rest).2)

/-- Which events can actually occur in a given state: the outer source obeys
the observer contract (no notifications after its completion), and inner
callbacks only come from one of the `active` subscribed inner sources. -/
def mmEvOk {T R : Type} (s : MMState T) : MMEv T R → Bool
  | MMEv.outerNext _ => !s.hasCompleted
  | MMEv.outerComplete => !s.hasCompleted
  | MMEv.innerNext _ => decide (0 < s.active)
  | MMEv.innerComplete => decide (0 < s.active)

/-- Whether a batch of destination notifications contains an error. -/
def mmHasError {R E : Type} (outs : List (Notif R E)) : Bool :=
  outs.any fun o => match o with | Notif.error _ => true | _ => false

/-- Validity of an event trace from a state: each event is possible in the
state it occurs in, and once a step delivers an error to the destination the
chain is torn down, so no further events occur. -/
def mmValid {T R E : Type} (project : T → Nat → Except E Unit) (concurrent : Nat)
    (s : MMState T) : List (MMEv T R) → Bool
  | [] => true
  | e :: rest =>
      mmEvOk s e &&
        (if mmHasError (mmStep project concurrent s e).2 then rest.isEmpty
         else mmValid project concurrent (mmStep project concurrent s e).1 rest)

/-- `_next` preserves the concurrency bound: `active` is only incremented
under the guard `active < concurrent`. -/
theorem mmNext_active_le {T R E : Type} (project : T → Nat → Except E Unit)
    (concurrent : Nat) (s : MMState T) (v : T) (h : s.active ≤ concurrent) :
    ((mmNext project concurrent s v : MMState T × List (Notif R E)).1).active ≤
      concurrent := by
  unfold mmNext
  split
  next hlt => cases project v s.index <;> simp <;> omega
  next => simpa using h

/-- Every step of the `MergeMapSubscriber` machine preserves
`active ≤ concurrent`. -/
theorem mmStep_active_le {T R E : Type} (project : T → Nat → Except E Unit)
    (concurrent : Nat) (s : MMState T) (e : MMEv T R)
    (h : s.active ≤ concurrent) :
    ((mmStep project concurrent s e).1).active ≤ concurrent := by
  cases e with
  | outerNext v => exact mmNext_active_le project concurrent s v h
  | outerComplete =>
      simp only [mmStep, mmComplete]
      split <;> simpa using h
  | innerNext r => simpa [mmStep, mmInnerNext] using h
  | innerComplete =>
      simp only [mmStep, mmInnerComplete]
      cases hbuf : s.buffer with
      | nil =>
          simp [hbuf]
          split <;> simp <;> omega
      | cons v rest =>
          simp [hbuf]
          exact mmNext_active_le project concurrent _ v (by simp; omega)

/-- Running any event sequence preserves `active ≤ concurrent`. -/
theorem mmRun_active_le {T R E : Type} (project : T → Nat → Except E Unit)
    (concurrent : Nat) (evs : List (MMEv T R)) (s : MMState T)
    (h : s.active ≤ concurrent) :
    ((mmRun project concurrent s evs : MMState T × List (Notif R E)).1).active ≤
      concurrent := by
  induction evs generalizing s with
  | nil => simpa [mmRun] using h
  | cons e rest ih =>
      simp only [mmRun]
      exact ih _ (mmStep_active_le project concurrent s e h)

/-- C1: for every mergeMap instance with concurrency limit `N ≥ 1` and every
sequence of outer next / inner completion events, the count `active` of
simultaneously subscribed inner sources never exceeds `N` (every reachable
state is the run of some event sequence from the initial state); moreover an
outer value arriving when no slot is free (`active ≥ N`) is buffered rather
than projected and subscribed. -/
theorem mergeMap_concurrency_bound {T R E : Type}
    (project : T → Nat → Except E Unit) (concurrent : Nat)
    (hc : 1 ≤ concurrent) :
    (∀ evs : List (MMEv T R),
        ((mmRun project concurrent (mmInit T) evs :
            MMState T × List (Notif R E)).1).active ≤ concurrent) ∧
      (∀ (s : MMState T) (v : T), concurrent ≤ s.active →
        (mmStep project concurrent s (MMEv.outerNext v) :
            MMState T × List (Notif R E)) =
          ({ s with buffer := s.buffer ++ [v] }, [])) := by
  constructor
  · intro evs
    exact mmRun_active_le project concurrent evs (mmInit T) (by simp [mmInit])
  · intro s v hge
    simp [mmStep, mmNext, Nat.not_lt.mpr hge]

/-- A projection function that always succeeds, used to instantiate theorems
at concrete inputs. -/
def projOk : Nat → Nat → Except Nat Unit := fun _ _ => Except.ok ()

/-- Concrete instantiation of `mergeMap_concurrency_bound`: limit 2, three
synchronous outer values, one inner completion, outer completion. -/
theorem mergeMap_concurrency_bound_witness :
    1 ≤ 2 ∧
      ((mmRun projOk 2 (mmInit Nat)
          [MMEv.outerNext 10, MMEv.outerNext 20, MMEv.outerNext 30,
           MMEv.innerComplete, MMEv.outerComplete] :
          MMState Nat × List (Notif Nat Nat)).1).active ≤ 2 :=
  ⟨by decide,
   (mergeMap_concurrency_bound projOk 2 (by decide)).1
     [MMEv.outerNext 10, MMEv.outerNext 20, MMEv.outerNext 30,
      MMEv.innerComplete, MMEv.outerComplete]⟩

/-- The completion condition of the flattening protocol: outer completed, no
active inner, empty buffer. -/
def mmDone {T : Type} (s : MMState T) : Prop :=
  s.hasCompleted = true ∧ s.active = 0 ∧ s.buffer = []

instance {T : Type} [DecidableEq T] (s : MMState T) : Decidable (mmDone s) := by
  unfold mmDone; infer_instance

/-- Number of `complete` notifications in a batch of destination outputs. -/
def mmCompleteCount {R E : Type} (outs : List (Notif R E)) : Nat :=
  outs.countP fun o => match o with | Notif.complete => true | _ => false

/-- Each step emits one of: nothing, a single inner value, a single error, or
a single `complete` — and in the last case the post-state satisfies the
completion condition. -/
theorem mmStep_outs {T R E : Type} (project : T → Nat → Except E Unit)
    (concurrent : Nat) (s : MMState T) (e : MMEv T R) :
    (mmStep project concurrent s e).2 = [] ∨
      (∃ r, (mmStep project concurrent s e).2 = [Notif.next r]) ∨
      (∃ err, (mmStep project concurrent s e).2 = [Notif.error err]) ∨
      ((mmStep project concurrent s e).2 = [Notif.complete] ∧
        mmDone (mmStep project concurrent s e).1) := by
  cases e with
  | outerNext v =>
      simp only [mmStep, mmNext]
      split
      · cases project v s.index <;> simp
      · simp
  | outerComplete =>
      simp only [mmStep, mmComplete]
      split
      next hcond =>
        simp only [Bool.and_eq_true, decide_eq_true_eq, List.isEmpty_iff] at hcond
        right; right; right
        simpa [mmDone] using hcond
      next => simp
  | innerNext r => simp [mmStep, mmInnerNext]
  | innerComplete =>
      simp only [mmStep, mmInnerComplete]
      cases hbuf : s.buffer with
      | nil =>
          simp only [hbuf]
          split
          next hcond =>
            simp only [Bool.and_eq_true, decide_eq_true_eq] at hcond
            right; right; right
            simpa [mmDone] using And.intro hcond.2 hcond.1
          next => simp
      | cons v rest =>
          simp only [hbuf, mmNext]
          split
          · cases project v s.index <;> simp
          · simp

/-- From a state where the outer source has completed and no inner is active,
the only valid trace is the empty one. -/
theorem mmValid_stopped {T R E : Type} (project : T → Nat → Except E Unit)
    (concurrent : Nat) (s : MMState T) (evs : List (MMEv T R))
    (hcmp : s.hasCompleted = true) (hact : s.active = 0)
    (hv : mmValid project concurrent s evs = true) : evs = [] := by
  cases evs with
  | nil => rfl
  | cons e rest =>
      exfalso
      simp only [mmValid, Bool.and_eq_true] at hv
      have hok := hv.1
      cases e <;> simp [mmEvOk, hcmp, hact] at hok

/-- For valid traces, at most one `complete` is ever delivered to the
destination. -/
theorem mmRun_completeCount_le_one {T R E : Type}
    (project : T → Nat → Except E Unit) (concurrent : Nat)
    (evs : List (MMEv T R)) (s : MMState T)
    (hv : mmValid project concurrent s evs = true) :
    mmCompleteCount (mmRun project concurrent s evs).2 ≤ 1 := by
  induction evs generalizing s with
  | nil => simp [mmRun, mmCompleteCount]
  | cons e rest ih =>
      simp only [mmValid, Bool.and_eq_true] at hv
      obtain ⟨hok, hv⟩ := hv
      simp only [mmRun, mmCompleteCount, List.countP_append]
      rcases mmStep_outs project concurrent s e with h | ⟨r, h⟩ | ⟨err, h⟩ |
          ⟨h, hdone⟩
      · rw [h] at hv ⊢
        simp only [mmHasError, List.any_nil, if_neg Bool.false_ne_true] at hv
        simpa [mmCompleteCount] using ih _ hv
      · rw [h] at hv ⊢
        simp only [mmHasError, List.any_cons, List.any_nil] at hv
        simp only [Bool.or_false, if_neg Bool.false_ne_true] at hv
        simpa [mmCompleteCount] using ih _ hv
      · rw [h] at hv ⊢
        simp only [mmHasError, List.any_cons, List.any_nil, Bool.or_false,
          if_true, List.isEmpty_iff] at hv
        simp [hv, mmRun, mmCompleteCount]
      · rw [h] at hv ⊢
        simp only [mmHasError, List.any_cons, List.any_nil] at hv
        simp only [Bool.or_false, if_neg Bool.false_ne_true] at hv
        have hrest := mmValid_stopped project concurrent _ rest hdone.1
          hdone.2.1 hv
        subst hrest
        simp [mmRun, mmCompleteCount]

/-- `_next` never changes `hasCompleted`. -/
theorem mmNext_hasCompleted {T R E : Type} (project : T → Nat → Except E Unit)
    (concurrent : Nat) (s : MMState T) (v : T) :
    ((mmNext project concurrent s v : MMState T × List (Notif R E)).1).hasCompleted =
      s.hasCompleted := by
  unfold mmNext
  split
  · cases project v s.index <;> simp
  · simp

/-- When `_next` delivers no error, it leaves the machine outside the
completion condition: either a new inner became active or the value was
buffered. -/
theorem mmNext_not_done {T R E : Type} (project : T → Nat → Except E Unit)
    (concurrent : Nat) (s : MMState T) (v : T)
    (herr : mmHasError
      ((mmNext project concurrent s v : MMState T × List (Notif R E)).2) = false) :
    ¬ mmDone ((mmNext project concurrent s v :
        MMState T × List (Notif R E)).1) := by
  by_cases hlt : s.active < concurrent
  · cases hp : project v s.index with
    | error err => simp [mmNext, hlt, hp, mmHasError] at herr
    | ok u => simp [mmNext, hlt, hp, mmDone]
  · simp [mmNext, hlt, mmDone]

/-- A step that is possible, delivers no error and delivers no `complete`
cannot move the machine into the completion condition. -/
theorem mmStep_not_done {T R E : Type} (project : T → Nat → Except E Unit)
    (concurrent : Nat) (s : MMState T) (e : MMEv T R)
    (hok : mmEvOk s e = true) (hnd : ¬ mmDone s)
    (herr : mmHasError (mmStep project concurrent s e).2 = false)
    (hcc : mmCompleteCount (mmStep project concurrent s e).2 = 0) :
    ¬ mmDone (mmStep project concurrent s e).1 := by
  cases e with
  | outerNext v => exact mmNext_not_done project concurrent s v herr
  | innerNext r => simpa [mmStep, mmInnerNext] using hnd
  | outerComplete =>
      simp only [mmStep, mmComplete, mmCompleteCount] at hcc ⊢
      split at hcc
      next hcond => simp at hcc
      next hcond =>
        rw [if_neg hcond]
        intro hd
        simp only [Bool.and_eq_true, decide_eq_true_eq, List.isEmpty_iff,
          not_and] at hcond
        exact hcond (by simpa using hd.2.1) (by simpa using hd.2.2)
  | innerComplete =>
      simp only [mmStep, mmInnerComplete] at hcc herr ⊢
      cases hbuf : s.buffer with
      | nil =>
          simp only [hbuf] at hcc herr ⊢
          split at hcc
          next hcond => simp [mmCompleteCount] at hcc
          next hcond =>
            rw [if_neg hcond]
            intro hd
            simp only [Bool.and_eq_true, decide_eq_true_eq, not_and] at hcond
            exact hcond (by simpa using hd.2.1) (by simpa using hd.1)
      | cons v rest =>
          simp only [hbuf] at hcc herr ⊢
          exact mmNext_not_done project concurrent _ v herr

/-- For a valid, error-free run starting outside the completion condition, if
the final state satisfies the completion condition then at least one
`complete` was delivered. -/
theorem mmRun_one_complete_of_done {T R E : Type}
    (project : T → Nat → Except E Unit) (concurrent : Nat)
    (evs : List (MMEv T R)) (s : MMState T)
    (hv : mmValid project concurrent s evs = true)
    (herr : mmHasError (mmRun project concurrent s evs).2 = false)
    (hnd : ¬ mmDone s)
    (hdone : mmDone (mmRun project concurrent s evs).1) :
    1 ≤ mmCompleteCount (mmRun project concurrent s evs).2 := by
  induction evs generalizing s with
  | nil => exact absurd hdone hnd
  | cons e rest ih =>
      simp only [mmValid, Bool.and_eq_true] at hv
      obtain ⟨hok, hv⟩ := hv
      simp only [mmRun, mmHasError, List.any_append, Bool.or_eq_false_iff]
        at herr
      obtain ⟨herr1, herr2⟩ := herr
      simp only [mmRun, mmCompleteCount, List.countP_append] at hdone ⊢
      rcases mmStep_outs project concurrent s e with h | ⟨r, h⟩ | ⟨err, h⟩ |
          ⟨h, hd⟩
      · rw [h] at hv
        simp only [mmHasError, List.any_nil, if_neg Bool.false_ne_true] at hv
        have hnd2 := mmStep_not_done project concurrent s e hok hnd
          (by simp [h, mmHasError]) (by simp [h, mmCompleteCount])
        have := ih _ hv herr2 hnd2 hdone
        rw [h]
        simp only [mmCompleteCount] at this
        simpa using this
      · rw [h] at hv
        simp only [mmHasError, List.any_cons, List.any_nil] at hv
        simp only [Bool.or_false, if_neg Bool.false_ne_true] at hv
        have hnd2 := mmStep_not_done project concurrent s e hok hnd
          (by simp [h, mmHasError]) (by simp [h, mmCompleteCount])
        have := ih _ hv herr2 hnd2 hdone
        rw [h]
        simp only [mmCompleteCount] at this
        simpa using this
      · rw [h] at herr1
        simp [mmHasError] at herr1
      · rw [h]
        simp [mmCompleteCount]

/-- C2: the destination of a mergeMap instance receives `complete` at most
once, only at a point where the outer has completed, `active = 0` and the
buffer is empty (first conjunct: any step that delivers `complete` leaves the
machine exactly in that condition); and on any valid error-free run that ends
with the outer completed, no active inner and an empty buffer — whether the
last event is the outer completion or the last inner completion — it receives
`complete` exactly once. -/
theorem mergeMap_complete_once {T R E : Type}
    (project : T → Nat → Except E Unit) (concurrent : Nat) :
    (∀ (s : MMState T) (e : MMEv T R),
        Notif.complete ∈ (mmStep project concurrent s e :
            MMState T × List (Notif R E)).2 →
          mmDone (mmStep project concurrent s e).1) ∧
      (∀ evs : List (MMEv T R),
        mmValid project concurrent (mmInit T) evs = true →
          mmCompleteCount ((mmRun project concurrent (mmInit T) evs :
              MMState T × List (Notif R E)).2) ≤ 1) ∧
      (∀ evs : List (MMEv T R),
        mmValid project concurrent (mmInit T) evs = true →
          mmHasError (mmRun project concurrent (mmInit T) evs).2 = false →
          mmDone (mmRun project concurrent (mmInit T) evs).1 →
          mmCompleteCount (mmRun project concurrent (mmInit T) evs).2 = 1) := by
  refine ⟨?_, ?_, ?_⟩
  · intro s e hmem
    rcases mmStep_outs project concurrent s e with h | ⟨r, h⟩ | ⟨err, h⟩ |
        ⟨h, hd⟩
    · rw [h] at hmem; simp at hmem
    · rw [h] at hmem; simp at hmem
    · rw [h] at hmem; simp at hmem
    · exact hd
  · intro evs hv
    exact mmRun_completeCount_le_one project concurrent evs (mmInit T) hv
  · intro evs hv herr hdone
    have h1 := mmRun_completeCount_le_one project concurrent evs (mmInit T) hv
    have h2 := mmRun_one_complete_of_done project concurrent evs (mmInit T)
      hv herr (by simp [mmDone, mmInit]) hdone
    omega

/-- Concrete instantiation of `mergeMap_complete_once`: one outer value, outer
completion while the inner is still active, then the inner completes; exactly
one `complete` is delivered, by the last inner completion. -/
theorem mergeMap_complete_once_witness :
    mmValid projOk 2 (mmInit Nat)
        [MMEv.outerNext 7, MMEv.outerComplete,
         (MMEv.innerComplete : MMEv Nat Nat)] = true ∧
      mmCompleteCount ((mmRun projOk 2 (mmInit Nat)
          [MMEv.outerNext 7, MMEv.outerComplete, MMEv.innerComplete] :
          MMState Nat × List (Notif Nat Nat)).2) = 1 :=
  ⟨by decide,
   (mergeMap_complete_once projOk 2).2.2
     [MMEv.outerNext 7, MMEv.outerComplete, MMEv.innerComplete]
     (by decide) (by decide) (by decide)⟩

/-- Equation for `_next` when a slot is free and the projection succeeds. -/
theorem mmNext_ok {T R E : Type} (project : T → Nat → Except E Unit)
    (concurrent : Nat) (s : MMState T) (v : T) (u : Unit)
    (hlt : s.active < concurrent) (hp : project v s.index = Except.ok u) :
    (mmNext project concurrent s v : MMState T × List (Notif R E)) =
      ({ s with index := s.index + 1, active := s.active + 1,
                admitted := s.admitted ++ [v] }, []) := by
  simp [mmNext, hlt, hp]

/-- Equation for `_next` when a slot is free and the projection throws. -/
theorem mmNext_err {T R E : Type} (project : T → Nat → Except E Unit)
    (concurrent : Nat) (s : MMState T) (v : T) (err : E)
    (hlt : s.active < concurrent) (hp : project v s.index = Except.error err) :
    (mmNext project concurrent s v : MMState T × List (Notif R E)) =
      ({ s with index := s.index + 1, admitted := s.admitted ++ [v] },
       [Notif.error err]) := by
  simp [mmNext, hlt, hp]

/-- Equation for `_next` when no concurrency slot is free. -/
theorem mmNext_buf {T R E : Type} (project : T → Nat → Except E Unit)
    (concurrent : Nat) (s : MMState T) (v : T)
    (hge : ¬ s.active < concurrent) :
    (mmNext project concurrent s v : MMState T × List (Notif R E)) =
      ({ s with buffer := s.buffer ++ [v] }, []) := by
  simp [mmNext, hge]

/-- `_complete` always moves to the `hasCompleted` state, whichever branch is
taken. -/
theorem mmComplete_fst {T R E : Type} (s : MMState T) :
    ((mmComplete s : MMState T × List (Notif R E))).1 =
      { s with hasCompleted := true } := by
  simp only [mmComplete]
  split <;> rfl

/-- `_complete` never delivers an error. -/
theorem mmComplete_noerr {T R E : Type} (s : MMState T) :
    mmHasError ((mmComplete s : MMState T × List (Notif R E))).2 = false := by
  simp only [mmComplete]
  split <;> simp [mmHasError]

/-- `notifyComplete` with an empty buffer just decrements `active`. -/
theorem mmInnerComplete_nil_fst {T R E : Type}
    (project : T → Nat → Except E Unit) (concurrent : Nat) (s : MMState T)
    (hbuf : s.buffer = []) :
    ((mmInnerComplete project concurrent s :
        MMState T × List (Notif R E))).1 = { s with active := s.active - 1 } := by
  unfold mmInnerComplete
  simp only [hbuf]
  split <;> rfl

/-- `notifyComplete` with an empty buffer never delivers an error. -/
theorem mmInnerComplete_nil_noerr {T R E : Type}
    (project : T → Nat → Except E Unit) (concurrent : Nat) (s : MMState T)
    (hbuf : s.buffer = []) :
    mmHasError ((mmInnerComplete project concurrent s :
        MMState T × List (Notif R E))).2 = false := by
  unfold mmInnerComplete
  simp only [hbuf]
  split <;> simp [mmHasError]

/-- `notifyComplete` with a non-empty buffer decrements `active`, shifts the
oldest buffered value and processes it exactly as a fresh outer `next`. -/
theorem mmInnerComplete_cons {T R E : Type}
    (project : T → Nat → Except E Unit) (concurrent : Nat) (s : MMState T)
    (v : T) (rest : List T) (hbuf : s.buffer = v :: rest) :
    (mmInnerComplete project concurrent s : MMState T × List (Notif R E)) =
      mmNext project concurrent
        { s with active := s.active - 1, buffer := rest } v := by
  unfold mmInnerComplete
  simp only [hbuf]

/-- C3: a synchronous projection throw on an outer value (arriving while a
concurrency slot is free) is caught at the operator boundary: the handler
returns normally — so the throw does not propagate into the upstream
producer's call stack — with the error routed to the destination's error
channel; `active` is not incremented, no inner subscription is created and the
buffer is untouched; only the outer index (and the ghost record of projection
calls) advances. -/
theorem mergeMap_projection_error {T R E : Type}
    (project : T → Nat → Except E Unit) (concurrent : Nat)
    (s : MMState T) (v : T) (err : E)
    (hlt : s.active < concurrent)
    (hp : project v s.index = Except.error err) :
    (mmStep project concurrent s (MMEv.outerNext v) :
        MMState T × List (Notif R E)) =
      ({ s with index := s.index + 1, admitted := s.admitted ++ [v] },
       [Notif.error err]) ∧
      ((mmStep project concurrent s (MMEv.outerNext v) :
          MMState T × List (Notif R E)).1).active = s.active ∧
      ((mmStep project concurrent s (MMEv.outerNext v) :
          MMState T × List (Notif R E)).1).buffer = s.buffer := by
  have h : (mmStep project concurrent s (MMEv.outerNext v) :
      MMState T × List (Notif R E)) =
      ({ s with index := s.index + 1, admitted := s.admitted ++ [v] },
       [Notif.error err]) :=
    mmNext_err project concurrent s v err hlt hp
  refine ⟨h, ?_, ?_⟩ <;> rw [h]

/-- A projection function that throws (with error code 99) exactly on the
value 3, used to instantiate theorems at concrete inputs. -/
def projErr3 : Nat → Nat → Except Nat Unit :=
  fun v _ => if v = 3 then Except.error 99 else Except.ok ()

/-- Concrete instantiation of `mergeMap_projection_error`: from the initial
state, the value 3 makes `projErr3` throw; the error is delivered and `active`
stays 0. -/
theorem mergeMap_projection_error_witness :
    (0 : Nat) < 1 ∧ projErr3 3 0 = Except.error 99 ∧
      (mmStep projErr3 1 (mmInit Nat) (MMEv.outerNext 3) :
          MMState Nat × List (Notif Nat Nat)).2 = [Notif.error 99] ∧
      ((mmStep projErr3 1 (mmInit Nat) (MMEv.outerNext 3) :
          MMState Nat × List (Notif Nat Nat)).1).active = 0 :=
  ⟨by decide, rfl,
   by rw [(mergeMap_projection_error projErr3 1 (mmInit Nat) 3 99
       (by decide) rfl).1],
   (mergeMap_projection_error projErr3 1 (mmInit Nat) 3 99
       (by decide) rfl).2.1⟩

/-- The outer values carried by an event trace, in arrival order. -/
def mmOuterValues {T R : Type} : List (MMEv T R) → List T
  | [] => []
  | MMEv.outerNext v :: rest => v :: mmOuterValues rest
  | MMEv.outerComplete :: rest => mmOuterValues rest
  | MMEv.innerNext _ :: rest => mmOuterValues rest
  | MMEv.innerComplete :: rest => mmOuterValues rest

/-- FIFO admission invariant: over any valid trace from a state where the
buffer is only populated at the concurrency limit, the values passed to the
projection followed by the values still buffered are exactly the previously
arrived values followed by the outer values of the trace, in arrival order. -/
theorem mmRun_fifo_aux {T R E : Type} (project : T → Nat → Except E Unit)
    (concurrent : Nat) (hc : 1 ≤ concurrent) (evs : List (MMEv T R))
    (s : MMState T)
    (hv : mmValid project concurrent s evs = true)
    (hle : s.active ≤ concurrent)
    (hbi : s.buffer = [] ∨ s.active = concurrent) :
    ((mmRun project concurrent s evs).1).admitted ++
        ((mmRun project concurrent s evs).1).buffer =
      s.admitted ++ s.buffer ++ mmOuterValues evs := by
  induction evs generalizing s with
  | nil => simp [mmRun, mmOuterValues]
  | cons e rest ih =>
      simp only [mmValid, Bool.and_eq_true] at hv
      obtain ⟨hok, hv⟩ := hv
      cases e with
      | outerNext v =>
          by_cases hlt : s.active < concurrent
          · have hbuf : s.buffer = [] := by
              rcases hbi with h | h
              · exact h
              · omega
            cases hp : project v s.index with
            | ok u =>
                have hstep :
                    (mmStep project concurrent s (MMEv.outerNext v) :
                        MMState T × List (Notif R E)) =
                      ({ s with index := s.index + 1, active := s.active + 1,
                                admitted := s.admitted ++ [v] }, []) :=
                  mmNext_ok project concurrent s v u hlt hp
                rw [hstep] at hv
                simp only [mmHasError, List.any_nil, Bool.false_eq_true,
                  if_false] at hv
                simp only [mmRun]
                rw [hstep, ih _ hv (by simp; omega) (Or.inl (by simp [hbuf]))]
                simp [hbuf, mmOuterValues]
            | error err =>
                have hstep :
                    (mmStep project concurrent s (MMEv.outerNext v) :
                        MMState T × List (Notif R E)) =
                      ({ s with index := s.index + 1,
                                admitted := s.admitted ++ [v] },
                       [Notif.error err]) :=
                  mmNext_err project concurrent s v err hlt hp
                rw [hstep] at hv
                simp only [mmHasError, List.any_cons, List.any_nil,
                  List.isEmpty_iff] at hv
                simp only [if_true, Bool.or_false, List.isEmpty_iff] at hv
                simp only [mmRun]
                rw [hstep, hv]
                simp [mmRun, hbuf, mmOuterValues]
          · have hstep :
                (mmStep project concurrent s (MMEv.outerNext v) :
                    MMState T × List (Notif R E)) =
                  ({ s with buffer := s.buffer ++ [v] }, []) :=
              mmNext_buf project concurrent s v hlt
            rw [hstep] at hv
            simp only [mmHasError, List.any_nil, Bool.false_eq_true,
              if_false] at hv
            simp only [mmRun]
            rw [hstep, ih _ hv (by simpa using hle) (Or.inr (by simp; omega))]
            simp [mmOuterValues]
      | outerComplete =>
          simp only [mmStep] at hv ⊢
          rw [mmComplete_noerr s] at hv
          simp only [Bool.false_eq_true, if_false] at hv
          rw [mmComplete_fst s] at hv
          simp only [mmRun, mmStep]
          rw [mmComplete_fst s,
            ih _ hv (by simpa using hle)
              (by rcases hbi with h | h
                  · exact Or.inl (by simpa using h)
                  · exact Or.inr (by simpa using h))]
          simp [mmOuterValues]
      | innerNext r =>
          simp only [mmStep, mmInnerNext] at hv ⊢
          simp only [mmHasError, List.any_cons, List.any_nil, Bool.or_false,
            Bool.false_eq_true, if_false] at hv
          simp only [mmRun, mmStep, mmInnerNext]
          rw [ih _ hv hle hbi]
          simp [mmOuterValues]
      | innerComplete =>
          cases hbuf : s.buffer with
          | nil =>
              simp only [mmStep] at hv ⊢
              rw [mmInnerComplete_nil_noerr project concurrent s hbuf] at hv
              simp only [Bool.false_eq_true, if_false] at hv
              rw [mmInnerComplete_nil_fst project concurrent s hbuf] at hv
              simp only [mmRun, mmStep]
              rw [mmInnerComplete_nil_fst project concurrent s hbuf,
                ih _ hv (by simp; omega) (Or.inl (by simpa using hbuf))]
              simp [hbuf, mmOuterValues]
          | cons v rest2 =>
              have hact : s.active = concurrent := by
                rcases hbi with h | h
                · rw [h] at hbuf; cases hbuf
                · exact h
              have hstep :
                  (mmInnerComplete project concurrent s :
                      MMState T × List (Notif R E)) =
                    mmNext project concurrent
                      { s with active := s.active - 1, buffer := rest2 } v :=
                mmInnerComplete_cons project concurrent s v rest2 hbuf
              have hlt2 : ({ s with active := s.active - 1, buffer := rest2 } :
                  MMState T).active < concurrent := by
                simp; omega
              cases hp : project v s.index with
              | ok u =>
                  have hstep2 :
                      (mmNext project concurrent
                          { s with active := s.active - 1, buffer := rest2 } v :
                          MMState T × List (Notif R E)) =
                        ({ s with index := s.index + 1,
                                  active := s.active - 1 + 1,
                                  buffer := rest2,
                                  admitted := s.admitted ++ [v] }, []) :=
                    mmNext_ok project concurrent _ v u hlt2 hp
                  simp only [mmStep] at hv ⊢
                  rw [hstep, hstep2] at hv
                  simp only [mmHasError, List.any_nil, Bool.false_eq_true,
                    if_false] at hv
                  simp only [mmRun, mmStep]
                  rw [hstep, hstep2,
                    ih _ hv (by simp; omega) (Or.inr (by simp; omega))]
                  simp [hbuf, mmOuterValues]
              | error err =>
                  have hstep2 :
                      (mmNext project concurrent
                          { s with active := s.active - 1, buffer := rest2 } v :
                          MMState T × List (Notif R E)) =
                        ({ s with index := s.index + 1,
                                  active := s.active - 1,
                                  buffer := rest2,
                                  admitted := s.admitted ++ [v] },
                         [Notif.error err]) :=
                    mmNext_err project concurrent _ v err hlt2 hp
                  simp only [mmStep] at hv ⊢
                  rw [hstep, hstep2] at hv
                  simp only [mmHasError, List.any_cons, List.any_nil,
                    Bool.or_false, if_true, List.isEmpty_iff] at hv
                  simp only [mmRun, mmStep]
                  rw [hstep, hstep2, hv]
                  simp [mmRun, hbuf, mmOuterValues]

/-- C4: at the concurrency limit each arriving outer value is appended to the
end of the buffer (FIFO); each inner completion decrements `active` and, if
the buffer is non-empty, removes the oldest buffered value and processes it
exactly as a fresh outer `next`; consequently, over any valid trace from the
initial state, the values admitted to the projection followed by the values
still buffered equal the arrived outer values in arrival order. -/
theorem mergeMap_buffer_fifo {T R E : Type}
    (project : T → Nat → Except E Unit) (concurrent : Nat)
    (hc : 1 ≤ concurrent) :
    (∀ (s : MMState T) (v : T), s.active = concurrent →
        (mmStep project concurrent s (MMEv.outerNext v) :
            MMState T × List (Notif R E)) =
          ({ s with buffer := s.buffer ++ [v] }, [])) ∧
      (∀ (s : MMState T) (v : T) (rest : List T), s.buffer = v :: rest →
        (mmStep project concurrent s MMEv.innerComplete :
            MMState T × List (Notif R E)) =
          mmNext project concurrent
            { s with active := s.active - 1, buffer := rest } v) ∧
      (∀ evs : List (MMEv T R),
        mmValid project concurrent (mmInit T) evs = true →
          ((mmRun project concurrent (mmInit T) evs :
              MMState T × List (Notif R E)).1).admitted ++
              ((mmRun project concurrent (mmInit T) evs).1).buffer =
            mmOuterValues evs) := by
  refine ⟨?_, ?_, ?_⟩
  · intro s v heq
    exact mmNext_buf project concurrent s v (by omega)
  · intro s v rest hbuf
    exact mmInnerComplete_cons project concurrent s v rest hbuf
  · intro evs hv
    have h := mmRun_fifo_aux project concurrent hc evs (mmInit T) hv
      (by simp [mmInit]) (Or.inl (by simp [mmInit]))
    simpa [mmInit] using h

/-- Event trace used to instantiate `mergeMap_buffer_fifo`: three outer
values arriving synchronously under limit 1, then three inner completions. -/
def evsFifo : List (MMEv Nat Nat) :=
  [MMEv.outerNext 4, MMEv.outerNext 5, MMEv.outerNext 6,
   MMEv.innerComplete, MMEv.innerComplete, MMEv.innerComplete]

/-- Concrete instantiation of `mergeMap_buffer_fifo`: limit 1, three outer
values arriving synchronously (two get buffered), then three inner
completions admit them in arrival order. -/
theorem mergeMap_buffer_fifo_witness :
    1 ≤ 1 ∧
      mmValid projOk 1 (mmInit Nat) evsFifo = true ∧
      ((mmRun projOk 1 (mmInit Nat) evsFifo :
          MMState Nat × List (Notif Nat Nat)).1).admitted ++
          ((mmRun projOk 1 (mmInit Nat) evsFifo :
            MMState Nat × List (Notif Nat Nat)).1).buffer =
        mmOuterValues evsFifo :=
  ⟨by decide, by decide,
   (mergeMap_buffer_fifo projOk 1 (by decide)).2.2 evsFifo (by decide)⟩

/-- Modelled from the spec: a queue-scheduler action (spec section 4.5); the
scheduler implementation itself is not among the provided sources, only its
tests.  An action has a due time, performs a list of observable effects
(tokens pushed to a log), may schedule further actions from inside its own
work, and may finish by throwing. -/
inductive SAct : Type where
  | mk (dueTime : Nat) (effects : List Nat) (throws : Bool) (subs : List SAct)

/-- Due time of an action. -/
def SAct.dueTime : SAct → Nat
  | SAct.mk d _ _ _ => d

/-- Modelled from the spec: the action queue is kept in non-decreasing
due-time order with stable FIFO placing among equal due times, so a new
action is inserted after every action whose due time is less than or equal to
its own. -/
def insertAction (a : SAct) : List SAct → List SAct
  | [] => [a]
  | b :: rest =>
      if b.dueTime ≤ a.dueTime then b :: insertAction a rest
      else a :: b :: rest

/-- Modelled from the spec: scheduling the sub-actions of a running action
appends each of them to the already-running flush loop's queue (no nested
flush). -/
def enqueueAll : List SAct → List SAct → List SAct
  | [], q => q
  | a :: l, q => enqueueAll l (insertAction a q)

theorem sizeOf_insertAction (a : SAct) (q : List SAct) :
    sizeOf (insertAction a q) = 1 + sizeOf a + sizeOf q := by
  induction q with
  | nil => simp [insertAction]
  | cons b rest ih =>
      simp only [insertAction]
      split
      · simp only [List.cons.sizeOf_spec, ih]; omega
      · simp only [List.cons.sizeOf_spec]

theorem sizeOf_enqueueAll (subs q : List SAct) :
    sizeOf (enqueueAll subs q) + 1 = sizeOf subs + sizeOf q := by
  induction subs generalizing q with
  | nil => simp only [enqueueAll, List.nil.sizeOf_spec]; omega
  | cons a l ih =>
      simp only [enqueueAll, List.cons.sizeOf_spec]
      rw [ih, sizeOf_insertAction]
      omega

/-- Modelled from the spec: the flush loop of the queue scheduler (spec
section 4.5).  It executes the queue until it empties: each action's effects
are logged, the actions it schedules are appended to the same queue (picked
up by this same iterative loop — no nested flush), and if an action's work
throws the loop stops at once.  Returns the effect log and whether a throw
escaped the flush.  Following the crash-resilience clause, a throw abandons
the queue so that a later schedule call starts a fresh, independent flush. -/
def flushLoop : List SAct → List Nat × Bool
  | [] => ([], false)
  | SAct.mk _ effects throws subs :: rest =>
      if throws then (effects, true)
      else
        (effects ++ (flushLoop (enqueueAll subs rest)).1,
         (flushLoop (enqueueAll subs rest)).2)
termination_by q => sizeOf q
decreasing_by
  all_goals
    have h := sizeOf_enqueueAll subs rest
    simp only [List.cons.sizeOf_spec, SAct.mk.sizeOf_spec]
    omega

/-- Modelled from the spec: scheduler state — the `flushing` guard plus the
ordered action queue (spec section 4.5). -/
structure SchedState where
  flushing : Bool
  queue : List SAct

/-- The idle scheduler with an empty queue. -/
def schedIdle : SchedState := ⟨false, []⟩

/-- Modelled from the spec: `schedule(work, dueTime)` (spec section 4.5).  If
the scheduler is already flushing (the call comes from within an executing
action), the new action is appended to the same queue and not executed by a
nested flush; no effect is produced and no throw escapes this call.  If idle,
the scheduler transitions to flushing, enqueues the action and runs the flush
loop until the queue empties, returning to idle; if an action's work throws,
the throw propagates synchronously out of this outermost call and the
scheduler is first restored to idle, retaining neither the failed action, any
already-executed action, nor the abandoned remainder of the queue.  Returns
the state after the call, the effect log of the call, and whether a throw
escaped it. -/
def schedule (s : SchedState) (a : SAct) : SchedState × List Nat × Bool :=
  if s.flushing then
    ({ s with queue := insertAction a s.queue }, [], false)
  else
    (schedIdle, (flushLoop (insertAction a s.queue)).1,
     (flushLoop (insertAction a s.queue)).2)

/-- A self-scheduling chain of depth `n + 1`: the action logs `n` and, from
inside its own work, schedules the chain of depth `n`. -/
def chainAct (d : Nat) : Nat → SAct
  | 0 => SAct.mk d [0] false []
  | n + 1 => SAct.mk d [n + 1] false [chainAct d n]

/-- The log produced by a chain of depth `n + 1`: `n, n-1, ..., 0`. -/
def descList : Nat → List Nat
  | 0 => [0]
  | n + 1 => (n + 1) :: descList n

theorem flushLoop_chainAct (d n : Nat) :
    flushLoop [chainAct d n] = (descList n, false) := by
  induction n with
  | zero => simp [chainAct, flushLoop, enqueueAll, descList]
  | succ n ih =>
      simp [chainAct, flushLoop, enqueueAll, insertAction, descList, ih]

/-- C6: scheduling an action B (same due time) from inside a running action A
appends B to the already-running flush loop's queue rather than running a
nested flush (first conjunct: a schedule call made while flushing only
enqueues and executes nothing); A's body runs to completion before B starts
and both have executed by the time the outermost schedule call returns
(second conjunct: A's effects all precede B's in the log of the single
outermost call); the one iterative flush loop handles a recursive
self-scheduling chain of any depth in one outermost call (third conjunct). -/
theorem scheduler_recursive_schedule :
    (∀ (q : List SAct) (a : SAct),
        schedule ⟨true, q⟩ a = (⟨true, insertAction a q⟩, [], false)) ∧
      (∀ (d : Nat) (ea eb : List Nat),
        schedule schedIdle (SAct.mk d ea false [SAct.mk d eb false []]) =
          (schedIdle, ea ++ eb, false)) ∧
      (∀ (d n : Nat),
        schedule schedIdle (chainAct d n) = (schedIdle, descList n, false)) := by
  refine ⟨?_, ?_, ?_⟩
  · intro q a
    simp [schedule]
  · intro d ea eb
    simp [schedule, schedIdle, insertAction, flushLoop, enqueueAll]
  · intro d n
    simp [schedule, schedIdle, insertAction, flushLoop_chainAct]

/-- C5: when an action's work throws during a flush, the throw propagates
synchronously out of the outermost schedule call that initiated the flush
(the returned thrown flag), the effects of actions executed before the
failure are preserved in the log while pending actions are dropped (first
conjunct: A runs and throws after B, with pending C dropped); every outermost
schedule call — including a throwing one — leaves the scheduler idle with an
empty queue, retaining neither the failed nor any executed action (second
conjunct); hence a subsequent unrelated schedule call behaves exactly like a
schedule call on a fresh scheduler (third conjunct). -/
theorem scheduler_crash_resilience :
    (∀ (d : Nat) (ea eb ec : List Nat),
        schedule schedIdle
            (SAct.mk d ea false [SAct.mk d eb true [], SAct.mk d ec false []]) =
          (schedIdle, ea ++ eb, true)) ∧
      (∀ a : SAct, (schedule schedIdle a).1 = schedIdle) ∧
      (∀ a1 a2 : SAct,
        schedule (schedule schedIdle a1).1 a2 = schedule schedIdle a2) := by
  refine ⟨?_, ?_, ?_⟩
  · intro d ea eb ec
    simp [schedule, schedIdle, insertAction, flushLoop, enqueueAll,
      SAct.dueTime]
  · intro a
    simp [schedule, schedIdle]
  · intro a1 a2
    simp [schedule, schedIdle]

/-- Modelled from the spec: one link of a destination chain — its
Subscription `closed` flag and its observer stopped flag (spec sections 3 and
4.2); the `canReportError` implementation is not among the provided sources,
only its tests. -/
structure ObsLink where
  closed : Bool
  isStopped : Bool
deriving DecidableEq, Repr

/-- Modelled from the spec: `canReportError` walks the chain of destinations
starting at the subscriber itself; if any link is already stopped or closed
the answer is false, otherwise true. -/
def canReportError : List ObsLink → Bool
  | [] => true
  | l :: rest => if l.closed || l.isStopped then false else canReportError rest

/-- A fresh SafeSubscriber: neither closed nor stopped. -/
def freshSafeSubscriber : ObsLink := ⟨false, false⟩

/-- Modelled from the spec: delivering `error` to a subscriber leaves it
stopped. -/
def afterError (l : ObsLink) : ObsLink := { l with isStopped := true }

/-- Modelled from the spec: unsubscribing a subscriber closes its
Subscription. -/
def afterUnsubscribe (l : ObsLink) : ObsLink := { l with closed := true }

/-- Where an error notification ends up: delivered through the destination
chain, or surfaced on the unhandled-error path. -/
inductive ErrorPath (E : Type) where
  | delivered (e : E)
  | unhandled (e : E)
deriving DecidableEq, Repr

/-- Modelled from the spec: delivery of an error is attempted through the
chain only when `canReportError` holds of it; otherwise the error falls
through to the unhandled-error path. -/
def reportError {E : Type} (chain : List ObsLink) (e : E) : ErrorPath E :=
  if canReportError chain then ErrorPath.delivered e else ErrorPath.unhandled e

theorem canReportError_iff (chain : List ObsLink) :
    canReportError chain = true ↔
      ∀ l ∈ chain, l.closed = false ∧ l.isStopped = false := by
  induction chain with
  | nil => simp [canReportError]
  | cons l rest ih =>
      simp only [canReportError]
      split
      next h =>
        simp only [Bool.or_eq_true] at h
        constructor
        · intro hfalse; cases hfalse
        · intro hall
          have := hall l (by simp)
          rcases h with h | h
          · rw [this.1] at h; cases h
          · rw [this.2] at h; cases h
      next h =>
        simp only [Bool.or_eq_true, not_or, Bool.not_eq_true] at h
        rw [ih]
        constructor
        · intro hall
          intro l2 hl2
          rcases List.mem_cons.mp hl2 with rfl | hl2
          · exact ⟨h.1, h.2⟩
          · exact hall l2 hl2
        · intro hall l2 hl2
          exact hall l2 (List.mem_cons_of_mem _ hl2)

/-- C7: `canReportError` answers true exactly when no link of the destination
chain is stopped or closed (first conjunct); it holds of a fresh
SafeSubscriber (second conjunct), fails once the subscriber has received
`error` (third conjunct) or its Subscription has been unsubscribed (fourth
conjunct), fails whenever any destination anywhere down the chain is stopped
or closed (fifth conjunct), and in that case error delivery is not attempted
through the chain and the error falls through to the unhandled-error path
(sixth conjunct). -/
theorem canReportError_policy :
    (∀ chain : List ObsLink,
        canReportError chain = true ↔
          ∀ l ∈ chain, l.closed = false ∧ l.isStopped = false) ∧
      canReportError [freshSafeSubscriber] = true ∧
      (∀ (l : ObsLink) (rest : List ObsLink),
        canReportError (afterError l :: rest) = false) ∧
      (∀ (l : ObsLink) (rest : List ObsLink),
        canReportError (afterUnsubscribe l :: rest) = false) ∧
      (∀ (pre : List ObsLink) (l : ObsLink) (post : List ObsLink),
        l.closed = true ∨ l.isStopped = true →
          canReportError (pre ++ l :: post) = false) ∧
      (∀ (E : Type) (chain : List ObsLink) (e : E),
        canReportError chain = false →
          reportError chain e = ErrorPath.unhandled e) := by
  refine ⟨canReportError_iff, by decide, ?_, ?_, ?_, ?_⟩
  · intro l rest
    simp [canReportError, afterError]
  · intro l rest
    simp [canReportError, afterUnsubscribe]
  · intro pre l post hl
    cases hcan : canReportError (pre ++ l :: post) with
    | false => rfl
    | true =>
        exfalso
        have := (canReportError_iff _).mp hcan l (by simp)
        rcases hl with h | h
        · rw [this.1] at h; cases h
        · rw [this.2] at h; cases h
  · intro E chain e hcan
    simp [reportError, hcan]

/-- Concrete instantiation of `canReportError_policy`: a chain whose second
link has received `error` blocks delivery; the error goes to the
unhandled-error path. -/
theorem canReportError_policy_witness :
    ((afterError freshSafeSubscriber).closed = true ∨
        (afterError freshSafeSubscriber).isStopped = true) ∧
      canReportError
          [freshSafeSubscriber, afterError freshSafeSubscriber] = false ∧
      reportError [freshSafeSubscriber, afterError freshSafeSubscriber]
          (0 : Nat) = ErrorPath.unhandled 0 :=
  ⟨Or.inr (by decide),
   canReportError_policy.2.2.2.2.1 [freshSafeSubscriber]
     (afterError freshSafeSubscriber) [] (Or.inr (by decide)),
   canReportError_policy.2.2.2.2.2 Nat
     [freshSafeSubscriber, afterError freshSafeSubscriber] 0 (by decide)⟩

/-- Termination of a source trace: completion or an error. -/
inductive SrcTerm (E : Type) where
  | complete
  | error (e : E)
deriving DecidableEq, Repr

/-- A source observable, denoted by its synchronous trace: the values it
emits followed by its terminal notification. -/
structure Src (V E : Type) where
  values : List V
  term : SrcTerm E
deriving DecidableEq, Repr

/-- Modelled from the spec: the EMPTY observable completes immediately with
no values (its implementation is not among the provided sources). -/
def emptySrc (V E : Type) : Src V E := ⟨[], SrcTerm.complete⟩

/-- A JavaScript argument value as passed to the onErrorResumeNext creation
function: either a source observable or an array. -/
inductive JsVal (V E : Type) where
  | obs (s : Src V E)
  | arr (l : List (JsVal V E))

/-- `Array.isArray`. -/
def jsIsArray {V E : Type} : JsVal V E → Bool
  | JsVal.obs _ => false
  | JsVal.arr _ => true

/-- The source observables denoted by a sources collection: a single
observable is one source; an array contributes its observable elements (the
claims only involve arrays of observables, so deeper array nesting is
dropped). -/
def jsSources {V E : Type} : JsVal V E → List (Src V E)
  | JsVal.obs s => [s]
  | JsVal.arr l =>
      l.filterMap fun j => match j with
        | JsVal.obs s => some s
        | JsVal.arr _ => none

/-- Modelled from the spec (section 4.6): the resume-on-termination run over
an ordered list of sources — subscribe to the first; on either its error or
its completion, immediately subscribe to the next source in order, discarding
the error entirely; when no sources remain, complete the composed result. -/
def oernObserved {V E : Type} : List (Src V E) → List (Notif V E)
  | [] => [Notif.complete]
  | s :: rest => s.values.map Notif.next ++ oernObserved rest

/-- Modelled from the spec: the onErrorResumeNext operator application
`onErrorResumeNextWith(sources)(EMPTY)` made by the creation function — the
operator implementation is not among the provided sources; it subscribes the
prepended source (EMPTY) and then the given sources, in order. -/
def oernWith {V E : Type} (sources : JsVal V E) (first : Src V E) :
    List (Notif V E) :=
  oernObserved (first :: jsSources sources)

/-- The onErrorResumeNext creation function (onErrorResumeNext.ts lines
73-78): if exactly one argument was passed and `Array.isArray(sources)` holds
of the rest-parameter array itself, the single argument replaces the whole
sources collection; the operator is then applied to EMPTY. -/
def onErrorResumeNext {V E : Type} (args : List (JsVal V E)) :
    List (Notif V E) :=
  let sources : JsVal V E :=
    if (args.length == 1) && jsIsArray (JsVal.arr args) then
      args.headD (JsVal.arr [])
    else JsVal.arr args
  oernWith sources (emptySrc V E)

theorem jsSources_obsList {V E : Type} (srcs : List (Src V E)) :
    jsSources (JsVal.arr (srcs.map JsVal.obs)) = srcs := by
  simp only [jsSources, List.filterMap_map]
  induction srcs with
  | nil => rfl
  | cons s rest ih => simpa [Function.comp] using ih

theorem oernObserved_eq {V E : Type} (srcs : List (Src V E)) :
    oernObserved srcs =
      ((srcs.flatMap Src.values).map Notif.next) ++ [Notif.complete] := by
  induction srcs with
  | nil => simp [oernObserved]
  | cons s rest ih => simp [oernObserved, ih]

theorem oernObserved_no_error {V E : Type} (srcs : List (Src V E)) (e : E) :
    Notif.error e ∉ oernObserved srcs := by
  rw [oernObserved_eq]
  intro h
  rcases List.mem_append.mp h with h | h
  · rcases List.mem_map.mp h with ⟨v, _, hv⟩
    cases hv
  · simp at h

/-- Calling the creation function with each source passed as its own
argument runs EMPTY and then the sources in order (shared between the claims
about the creation function). -/
theorem onErrorResumeNext_obsList {V E : Type} (srcs : List (Src V E)) :
    onErrorResumeNext (srcs.map JsVal.obs) =
      oernObserved (emptySrc V E :: srcs) := by
  match srcs with
  | [s] =>
      simp [onErrorResumeNext, oernWith, jsIsArray, jsSources]
  | [] =>
      simp [onErrorResumeNext, oernWith, jsIsArray, jsSources]
  | s1 :: s2 :: rest =>
      simp only [onErrorResumeNext]
      rw [if_neg (by simp)]
      simp only [oernWith]
      rw [jsSources_obsList]

/-- C8: the composed Observable runs the given sources in order, moving to
the next source on either error or completion: with each source passed as its
own argument the consumer observes every source's values in order followed by
a single completion (first conjunct); an error notification is never
delivered to the consumer, for any argument list (second conjunct); in
particular for sources [A, B] where A emits 1 then errors and B emits 2 then
completes, the consumer observes next 1, next 2, complete (third conjunct). -/
theorem onErrorResumeNext_resumes {V E : Type} :
    (∀ srcs : List (Src V E),
        onErrorResumeNext (srcs.map JsVal.obs) =
          ((srcs.flatMap Src.values).map Notif.next) ++ [Notif.complete]) ∧
      (∀ (args : List (JsVal V E)) (e : E),
        Notif.error e ∉ onErrorResumeNext args) ∧
      (∀ (v1 v2 : V) (e : E),
        onErrorResumeNext
            [JsVal.obs ⟨[v1], SrcTerm.error e⟩,
             JsVal.obs ⟨[v2], SrcTerm.complete⟩] =
          [Notif.next v1, Notif.next v2, Notif.complete]) := by
  refine ⟨?_, ?_, ?_⟩
  · intro srcs
    rw [onErrorResumeNext_obsList]
    simp [oernObserved, emptySrc, oernObserved_eq]
  · intro args e
    simp only [onErrorResumeNext]
    exact oernObserved_no_error _ e
  · intro v1 v2 e
    have h := onErrorResumeNext_obsList
      [(⟨[v1], SrcTerm.error e⟩ : Src V E), ⟨[v2], SrcTerm.complete⟩]
    simp only [List.map_cons, List.map_nil] at h
    rw [h]
    simp [oernObserved, emptySrc]

/-- Concrete instantiation of `onErrorResumeNext_resumes`: A emits 1 then
errors, B emits 2 then completes; the consumer observes 1, 2, completion and
no error. -/
theorem onErrorResumeNext_resumes_witness :
    onErrorResumeNext
        [JsVal.obs (⟨[1], SrcTerm.error 5⟩ : Src Nat Nat),
         JsVal.obs ⟨[2], SrcTerm.complete⟩] =
      [Notif.next 1, Notif.next 2, Notif.complete] :=
  onErrorResumeNext_resumes.2.2 1 2 5

/-- C9: called with zero arguments, or with a single argument that is an
empty array, the composed Observable completes immediately with no values and
no error. -/
theorem onErrorResumeNext_empty {V E : Type} :
    onErrorResumeNext ([] : List (JsVal V E)) = [Notif.complete] ∧
      onErrorResumeNext [JsVal.arr ([] : List (JsVal V E))] =
        [Notif.complete] := by
  constructor
  · simp [onErrorResumeNext, oernWith, jsSources, oernObserved, emptySrc]
  · simp [onErrorResumeNext, oernWith, jsIsArray, jsSources, oernObserved,
      emptySrc]

/-- C10: the guard of the creation function tests `Array.isArray` on the
rest-parameter array itself, which always holds (first conjunct), so a single
argument — array or not — is unconditionally substituted as the whole sources
collection handed to the operator (second conjunct); consequently a single
array argument behaves identically to passing its sources as separate
arguments (third conjunct). -/
theorem onErrorResumeNext_single_arg {V E : Type} :
    (∀ args : List (JsVal V E), jsIsArray (JsVal.arr args) = true) ∧
      (∀ v : JsVal V E,
        onErrorResumeNext [v] = oernWith v (emptySrc V E)) ∧
      (∀ srcs : List (Src V E),
        onErrorResumeNext [JsVal.arr (srcs.map JsVal.obs)] =
          onErrorResumeNext (srcs.map JsVal.obs)) := by
  refine ⟨?_, ?_, ?_⟩
  · intro args
    rfl
  · intro v
    simp [onErrorResumeNext, jsIsArray]
  · intro srcs
    rw [onErrorResumeNext_obsList]
    simp [onErrorResumeNext, jsIsArray, oernWith, jsSources_obsList]

end RxSpec
